import Mathlib

/-!
Shallow embedding of `app/ingest.py` (data-ingestion pipeline): the
sliding-window chunker, document chunking with metadata merge, and the
repository download with branch fallback.  Python dictionaries are modelled
as insertion-ordered association lists with Python's dict semantics
(assignment replaces the first matching key in place, otherwise appends).
-/

deriving instance DecidableEq for Except

/-- A front-matter / record value.  Claims only exercise string and
integer-valued fields; other front-matter value shapes are not needed. -/
inductive Value where
  | vStr : String → Value
  | vNat : Nat → Value
deriving DecidableEq

/-- A Python dict: insertion-ordered key/value pairs. -/
abbrev Dict := List (String × Value)

/-- Python `d[f]` lookup (first matching key; dicts keep keys unique). -/
def dictGet (d : Dict) (f : String) : Option Value :=
  match d with
  | [] => none
  | p :: rest => if p.1 = f then some p.2 else dictGet rest f

/-- Python `d[k] = v`: replace the first occurrence of `k` in place,
otherwise append `(k, v)` at the end (dict insertion order). -/
def dictSet (d : Dict) (k : String) (v : Value) : Dict :=
  match d with
  | [] => [(k, v)]
  | p :: rest => if p.1 = k then (k, v) :: rest else p :: dictSet rest k v

/-- Python `d.pop(k, default)`'s effect on the dict: remove the key. -/
def dictRemove (d : Dict) (k : String) : Dict :=
  d.filter (fun p => p.1 ≠ k)

/-- Python `ch.update(base)`: assign every `base` entry into `ch` in order. -/
def dictUpdate (ch : Dict) (base : Dict) : Dict :=
  match base with
  | [] => ch
  | p :: rest => dictUpdate (dictSet ch p.1 p.2) rest

/-- Value of the LAST occurrence of a key (what a fold of assignments
observes when the source list has duplicate keys). -/
def lastVal (d : Dict) (f : String) : Option Value :=
  match d with
  | [] => none
  | p :: rest =>
    match lastVal rest f with
    | some v => some v
    | none => if p.1 = f then some p.2 else none

/-- One chunk produced by `sliding_window`: the dict
`{"start": i, "content": batch}` before metadata is merged in. -/
structure Chunk where
  start : Nat
  content : List Char
deriving DecidableEq

/-- The number of iterations of Python `range(0, n, step)` for `step > 0`. -/
def pyCount (n st : Nat) : Nat := (n + st - 1) / st

/-- The loop body of `sliding_window` over the (precomputed) offsets of
`range(0, n, step)`: emit `text[i : i+size]` for each offset, and stop
right after the first chunk with `i + size > len(text)` (the `break`). -/
def swGo (text : List Char) (size : Nat) : List Nat → List Chunk
  | [] => []
  | i :: rest =>
    let batch := (text.drop i).take size
    if text.length < i + size then [⟨i, batch⟩]
    else ⟨i, batch⟩ :: swGo text size rest

/-- `sliding_window(text, size, step)` from `app/ingest.py`: validates the
parameters, then walks `range(0, len(text), step)` emitting
`{"start": i, "content": text[i:i+size]}`, breaking after the first chunk
with `i + size > len(text)`.  `ValueError` is modelled as `Except.error`. -/
def sliding_window (text : List Char) (size step : Int) : Except String (List Chunk) :=
  if size ≤ 0 ∨ step ≤ 0 then .error "size and step must be positive"
  else
    .ok (swGo text size.toNat
          (List.range' 0 (pyCount text.length step.toNat) step.toNat))

/-- `full = base.pop("content", "")` of `chunk_documents`: the record's
content string, or empty when the field is missing.  A non-string value
would make Python's `len(full)` raise `TypeError`. -/
def getFull (doc : Dict) : Except String (List Char) :=
  match dictGet doc "content" with
  | none => .ok []
  | some (Value.vStr s) => .ok s.data
  | some _ => .error "TypeError: content is not a string"

/-- The fresh dict literal `{"start": i, "content": batch}`. -/
def chunkInit (c : Chunk) : Dict :=
  [("start", Value.vNat c.start), ("content", Value.vStr (String.mk c.content))]

/-- The per-record body of `chunk_documents`: `base = doc.copy()`,
`full = base.pop("content", "")`, then for every sliding-window chunk
build `{"start": i, "content": batch}` and `ch.update(base)`. -/
def chunk_doc (doc : Dict) (size step : Int) : Except String (List Dict) :=
  match getFull doc with
  | .error e => .error e
  | .ok full =>
    match sliding_window full size step with
    | .error e => .error e
    | .ok cs => .ok (cs.map fun c => dictUpdate (chunkInit c) (dictRemove doc "content"))

/-- `chunk_documents(docs, size, step)` from `app/ingest.py`: apply the
sliding window to every record, accumulating each record's chunks in order. -/
def chunk_documents (docs : List Dict) (size step : Int) : Except String (List Dict) :=
  match docs with
  | [] => .ok []
  | d :: rest =>
    match chunk_doc d size step with
    | .error e => .error e
    | .ok cs =>
      match chunk_documents rest size step with
      | .error e => .error e
      | .ok more => .ok (cs ++ more)

/-! ### `read_repo_data`: archive extraction with branch fallback

The network download and the front-matter parser are external collaborators:
a `ZipEntry` carries the archive filename together with the parser's outcome
for that entry's bytes, and the per-branch download is a function
`String → Except String (List ZipEntry)` (any download error — HTTP status,
timeout, malformed archive — is an `Except.error`). -/

/-- Python `s.endswith(suffix)` on character lists. -/
def endsWithCh (s suf : List Char) : Bool :=
  s.drop (s.length - suf.length) == suf

/-- Python `s.startswith(prefix)` on character lists. -/
def startsWithCh (s pre2 : List Char) : Bool :=
  s.take pre2.length == pre2

/-- Python `name.split("/", 1)` when it yields two parts: the text before
the first slash and everything after it; `none` when there is no slash. -/
def splitOnFirstSlash : List Char → Option (List Char × List Char)
  | [] => none
  | c :: rest =>
    if c = '/' then some ([], rest)
    else
      match splitOnFirstSlash rest with
      | none => none
      | some (l, r) => some (c :: l, r)

/-- One entry of the downloaded ZIP archive: its filename and the outcome of
reading + front-matter-parsing its bytes (metadata dict and body string). -/
structure ZipEntry where
  filename : String
  parsed : Except String (Dict × String)
deriving DecidableEq

/-- The record built for one parsed file: `post.to_dict()` (metadata plus the
body under `"content"`), then `content`, `filename`, `path`, `repo_owner`,
`repo_name` and `branch` assigned in source order. -/
def buildDoc (meta : Dict) (body : String)
    (fname path ow nm b : String) : Dict :=
  let d0 := dictSet meta "content" (Value.vStr body)
  let d1 := dictSet d0 "content" (Value.vStr body)
  let d2 := dictSet d1 "filename" (Value.vStr fname)
  let d3 := dictSet d2 "path" (Value.vStr path)
  let d4 := dictSet d3 "repo_owner" (Value.vStr ow)
  let d5 := dictSet d4 "repo_name" (Value.vStr nm)
  dictSet d5 "branch" (Value.vStr b)

/-- The per-entry body of the extraction loop in `read_repo_data`:
skip entries failing the extension filter, the two-part split, or the
path-prefix filter (`.ok none`); otherwise parse (a parse failure
propagates) and build the record. -/
def processEntry (ow nm b : String) (exts prefixes : List String)
    (e : ZipEntry) : Except String (Option Dict) :=
  let nameLower := e.filename.data.map Char.toLower
  if exts.any (fun ext => endsWithCh nameLower ext.data) then
    match splitOnFirstSlash e.filename.data with
    | none => .ok none
    | some (_, pathCh) =>
      if prefixes.isEmpty || prefixes.any (fun p => startsWithCh pathCh p.data) then
        match e.parsed with
        | .error err => .error err
        | .ok (meta, body) =>
          .ok (some (buildDoc meta body e.filename (String.mk pathCh) ow nm b))
      else .ok none
  else .ok none

/-- The filter part of `processEntry` alone: does the entry survive the
extension filter, the split, and the prefix filter (so that its bytes get
parsed)? -/
def keptEntry (exts prefixes : List String) (e : ZipEntry) : Bool :=
  (exts.any fun ext => endsWithCh (e.filename.data.map Char.toLower) ext.data) &&
  (match splitOnFirstSlash e.filename.data with
   | none => false
   | some (_, pathCh) =>
     prefixes.isEmpty || prefixes.any fun p => startsWithCh pathCh p.data)

/-- The extraction loop over all archive entries: collect the records of the
kept entries in order; any parse failure aborts the whole pass. -/
def processEntries (ow nm b : String) (exts prefixes : List String) :
    List ZipEntry → Except String (List Dict)
  | [] => .ok []
  | e :: rest =>
    match processEntry ow nm b exts prefixes e with
    | .error err => .error err
    | .ok r =>
      match processEntries ow nm b exts prefixes rest with
      | .error err => .error err
      | .ok rs =>
        match r with
        | none => .ok rs
        | some d => .ok (d :: rs)

/-- The body of one iteration of the branch loop of `read_repo_data`: the
whole `try:` block — download the branch archive and extract its records.
Any failure inside (download or parse) is the caught exception. -/
def tryBranch (fetch : String → Except String (List ZipEntry))
    (ow nm : String) (exts prefixes : List String) (b : String) :
    Except String (List Dict) :=
  match fetch b with
  | .error e => .error e
  | .ok entries => processEntries ow nm b exts prefixes entries

/-- The branch loop of `read_repo_data` with the accumulated `last_err`:
return on the first branch that succeeds, otherwise remember the error and
try the next; raise `RuntimeError` carrying `last_err` when exhausted. -/
def read_repo_data_go (fetch : String → Except String (List ZipEntry))
    (ow nm : String) (exts prefixes : List String) :
    List String → Option String → Except (Option String) (List Dict × String)
  | [], lastErr => .error lastErr
  | b :: rest, _lastErr =>
    match tryBranch fetch ow nm exts prefixes b with
    | .ok docs => .ok (docs, b)
    | .error e => read_repo_data_go fetch ow nm exts prefixes rest (some e)

/-- `read_repo_data` from `app/ingest.py`, with the per-branch download as
an explicit collaborator function: `last_err = None`, then the branch loop. -/
def read_repo_data (fetch : String → Except String (List ZipEntry))
    (ow nm : String) (exts prefixes : List String) (branches : List String) :
    Except (Option String) (List Dict × String) :=
  read_repo_data_go fetch ow nm exts prefixes branches none

/-! ### Mutation model of `chunk_documents`

To state what `chunk_documents` does to the dictionaries it was handed, the
Python objects are modelled explicitly: a store of dict objects addressed by
position, with `doc.copy()`, `base.pop(...)` and `ch.update(...)` acting on
store cells.  The input is a list of addresses into the store. -/

/-- The object store: dict objects addressed by their index. -/
abbrev Store := List Dict

/-- The inner `for ch in sliding_window(...)` loop: allocate each merged
chunk dict as a fresh object and record its address. -/
def appendChunksMut (baseAddr : Nat) :
    List Chunk → Store → List Nat → Store × List Nat
  | [], σ, acc => (σ, acc)
  | c :: cs, σ, acc =>
    let ch := dictUpdate (chunkInit c) (σ.getD baseAddr [])
    appendChunksMut baseAddr cs (σ ++ [ch]) (acc ++ [σ.length])

/-- `chunk_documents` acting on the object store: for each input address,
`base = doc.copy()` allocates a fresh cell, `base.pop("content", "")`
mutates that fresh cell only, and every chunk dict is a fresh allocation. -/
def chunk_documents_mut (size step : Int) :
    List Nat → Store → Except String (Store × List Nat)
  | [], σ => .ok (σ, [])
  | a :: rest, σ =>
    let doc := σ.getD a []
    let baseAddr := σ.length
    let σ1 := σ ++ [doc]
    match getFull doc with
    | .error e => .error e
    | .ok full =>
      let σ2 := σ1.set baseAddr (dictRemove doc "content")
      match sliding_window full size step with
      | .error e => .error e
      | .ok cs =>
        let p := appendChunksMut baseAddr cs σ2 []
        match chunk_documents_mut size step rest p.1 with
        | .error e => .error e
        | .ok (σ4, more) => .ok (σ4, p.2 ++ more)

/-! ### Lemmas about the sliding-window loop -/

theorem swGo_cons (text : List Char) (size a : Nat) (l : List Nat) :
    swGo text size (a :: l) =
      if text.length < a + size then [⟨a, (text.drop a).take size⟩]
      else ⟨a, (text.drop a).take size⟩ :: swGo text size l := rfl

theorem swGo_get (text : List Char) (size st : Nat) :
    ∀ (c a k : Nat), k < (swGo text size (List.range' a c st)).length →
      (swGo text size (List.range' a c st))[k]? =
        some ⟨a + k * st, (text.drop (a + k * st)).take size⟩ := by
  intro c
  induction c with
  | zero => intro a k hk; simp [List.range', swGo] at hk
  | succ c ih =>
    intro a k hk
    simp only [List.range', swGo_cons] at hk ⊢
    by_cases h : text.length < a + size
    · rw [if_pos h] at hk ⊢
      have hk0 : k = 0 := by
        simp only [List.length_singleton] at hk
        omega
      subst hk0
      simp
    · rw [if_neg h] at hk ⊢
      match k with
      | 0 => simp
      | k + 1 =>
        have hk2 : k < (swGo text size (List.range' (a + st) c st)).length := by
          simp only [List.length_cons] at hk
          omega
        have hrec := ih (a + st) k hk2
        simp only [List.getElem?_cons_succ]
        rw [hrec]
        have harith : a + st + k * st = a + (k + 1) * st := by
          rw [Nat.succ_mul]; omega
        rw [harith]

theorem swGo_length_le (text : List Char) (size st : Nat) :
    ∀ (c a : Nat), (swGo text size (List.range' a c st)).length ≤ c := by
  intro c
  induction c with
  | zero => intro a; simp [List.range', swGo]
  | succ c ih =>
    intro a
    simp only [List.range', swGo_cons]
    by_cases h : text.length < a + size
    · simp [h]
    · rw [if_neg h]
      simp only [List.length_cons]
      exact Nat.succ_le_succ (ih (a + st))

theorem swGo_nonlast (text : List Char) (size st : Nat) :
    ∀ (c a k : Nat), k + 1 < (swGo text size (List.range' a c st)).length →
      a + k * st + size ≤ text.length := by
  intro c
  induction c with
  | zero => intro a k hk; simp [List.range', swGo] at hk
  | succ c ih =>
    intro a k hk
    simp only [List.range'] at hk
    by_cases h : text.length < a + size
    · simp [swGo, h] at hk
    · simp only [swGo, h, if_neg, not_false_iff, List.length_cons] at hk
      match k with
      | 0 => simpa using Nat.le_of_not_lt h
      | k + 1 =>
        have := ih (a + st) k (by omega)
        rw [Nat.succ_mul]
        omega

theorem swGo_ne_nil (text : List Char) (size st : Nat) :
    ∀ (c a : Nat), 0 < c → swGo text size (List.range' a c st) ≠ [] := by
  intro c a hc
  match c, hc with
  | c + 1, _ =>
    simp only [List.range', swGo]
    by_cases h : text.length < a + size <;> simp [h]

theorem swGo_last_stop (text : List Char) (size st : Nat) :
    ∀ (c a : Nat), text.length ≤ a + c * st →
      ∀ (hne : swGo text size (List.range' a c st) ≠ []),
        text.length < ((swGo text size (List.range' a c st)).getLast hne).start + size ∨
        text.length ≤ ((swGo text size (List.range' a c st)).getLast hne).start + st := by
  intro c
  induction c with
  | zero => intro a _ hne; simp [List.range', swGo] at hne
  | succ c ih =>
    intro a hend hne
    simp only [List.range'] at hne ⊢
    by_cases h : text.length < a + size
    · simp only [swGo, h, if_pos] at hne ⊢
      left
      simp [List.getLast_singleton]
      exact h
    · simp only [swGo, h, if_neg, not_false_iff] at hne ⊢
      by_cases hc : c = 0
      · subst hc
        simp only [List.range', swGo, List.getLast_singleton]
        right
        simp only [Nat.succ_mul, Nat.zero_mul] at hend
        omega
      · have hne2 : swGo text size (List.range' (a + st) c st) ≠ [] :=
          swGo_ne_nil text size st c (a + st) (Nat.pos_of_ne_zero hc)
        rw [List.getLast_cons hne2]
        have hend2 : text.length ≤ a + st + c * st := by
          rw [Nat.succ_mul] at hend; omega
        exact ih (a + st) hend2 hne2

theorem swGo_covers (text : List Char) (size st : Nat) (hss : st ≤ size) :
    ∀ (c a p : Nat), a ≤ p → p < text.length → text.length ≤ a + c * st →
      ∃ ch ∈ swGo text size (List.range' a c st),
        ch.start ≤ p ∧ p < ch.start + ch.content.length := by
  intro c
  induction c with
  | zero => intro a p hap hpn hend; simp at hend; omega
  | succ c ih =>
    intro a p hap hpn hend
    have hbatch : ((text.drop a).take size).length = min size (text.length - a) := by
      simp [List.length_take, List.length_drop]
    simp only [List.range']
    by_cases h : text.length < a + size
    · refine ⟨⟨a, (text.drop a).take size⟩, ?_, hap, ?_⟩
      · simp [swGo, h]
      · simp only [hbatch]
        omega
    · by_cases hp : p < a + size
      · refine ⟨⟨a, (text.drop a).take size⟩, ?_, hap, ?_⟩
        · simp [swGo, h]
        · simp only [hbatch]
          omega
      · have hend2 : text.length ≤ a + st + c * st := by
          rw [Nat.succ_mul] at hend; omega
        have hap2 : a + st ≤ p := by omega
        obtain ⟨ch, hmem, h1, h2⟩ := ih (a + st) p hap2 hpn hend2
        exact ⟨ch, by simp [swGo, h, hmem], h1, h2⟩

theorem swGo_last_end (text : List Char) (size st : Nat) (hss : st ≤ size) :
    ∀ (c a : Nat), (∀ k, k < c → a + k * st < text.length) →
      text.length ≤ a + c * st →
      ∀ (hne : swGo text size (List.range' a c st) ≠ []),
        ((swGo text size (List.range' a c st)).getLast hne).start +
          ((swGo text size (List.range' a c st)).getLast hne).content.length =
          text.length := by
  intro c
  induction c with
  | zero => intro a _ _ hne; simp [List.range', swGo] at hne
  | succ c ih =>
    intro a hlt hend hne
    have ha : a < text.length := by simpa using hlt 0 (Nat.succ_pos c)
    have hbatch : ((text.drop a).take size).length = min size (text.length - a) := by
      simp [List.length_take, List.length_drop]
    simp only [List.range'] at hne ⊢
    by_cases h : text.length < a + size
    · simp only [swGo, h, if_pos, List.getLast_singleton]
      simp only [hbatch]
      omega
    · simp only [swGo, h, if_neg, not_false_iff] at hne ⊢
      by_cases hc : c = 0
      · subst hc
        simp only [List.range', swGo, List.getLast_singleton]
        simp only [hbatch]
        simp only [Nat.succ_mul, Nat.zero_mul] at hend
        omega
      · have hne2 : swGo text size (List.range' (a + st) c st) ≠ [] :=
          swGo_ne_nil text size st c (a + st) (Nat.pos_of_ne_zero hc)
        rw [List.getLast_cons hne2]
        have hlt2 : ∀ k, k < c → a + st + k * st < text.length := by
          intro k hk
          have := hlt (k + 1) (by omega)
          rw [Nat.succ_mul] at this
          omega
        have hend2 : text.length ≤ a + st + c * st := by
          rw [Nat.succ_mul] at hend; omega
        exact ih (a + st) hlt2 hend2 hne2

/-! ### Lemmas about the `range(0, n, step)` iteration count -/

theorem pyCount_mul_ge (n st : Nat) (hst : 0 < st) : n ≤ pyCount n st * st := by
  unfold pyCount
  have heq := Nat.div_add_mod (n + st - 1) st
  have hr : (n + st - 1) % st < st := Nat.mod_lt _ hst
  have hcomm : (n + st - 1) / st * st = st * ((n + st - 1) / st) := Nat.mul_comm _ _
  omega

theorem pyCount_lt_n (n st : Nat) (hst : 0 < st) :
    ∀ k, k < pyCount n st → k * st < n := by
  intro k hk
  unfold pyCount at hk
  have h1 : (k + 1) * st ≤ (n + st - 1) / st * st :=
    Nat.mul_le_mul_right st hk
  have h2 : (n + st - 1) / st * st ≤ n + st - 1 := Nat.div_mul_le_self _ _
  rw [Nat.succ_mul] at h1
  omega

theorem pyCount_pos (n st : Nat) (hst : 0 < st) (hn : 0 < n) : 0 < pyCount n st := by
  unfold pyCount
  have : 1 * st ≤ n + st - 1 := by omega
  exact (Nat.le_div_iff_mul_le hst).mpr this

/-- Unpacking a successful `sliding_window` call: the parameters were
positive and the result is the loop over `range(0, n, step)`. -/
theorem sliding_window_ok (text : List Char) (size step : Int) (chunks : List Chunk)
    (h : sliding_window text size step = .ok chunks) :
    0 < size ∧ 0 < step ∧
    chunks = swGo text size.toNat
      (List.range' 0 (pyCount text.length step.toNat) step.toNat) := by
  unfold sliding_window at h
  by_cases hc : size ≤ 0 ∨ step ≤ 0
  · simp [hc] at h
  · rw [if_neg hc] at h
    push_neg at hc
    refine ⟨hc.1, hc.2, ?_⟩
    exact (Except.ok.inj h).symm

/-! ### Claim C5 -/

/-- C5: for every text and every `size ≤ 0` or `step ≤ 0`,
`sliding_window(text, size, step)` fails with the `ValueError`
("size and step must be positive") before doing any work, producing no
output chunks. -/
theorem sliding_window_invalid_args (text : List Char) (size step : Int)
    (h : size ≤ 0 ∨ step ≤ 0) :
    sliding_window text size step = .error "size and step must be positive" := by
  unfold sliding_window
  rw [if_pos h]

/-- Witness for C5 at `text = "x"`, `size = 0`, `step = 5`. -/
theorem sliding_window_invalid_args_witness :
    ((0 : Int) ≤ 0 ∨ (5 : Int) ≤ 0) ∧
    sliding_window ("x".data) 0 5 = .error "size and step must be positive" :=
  ⟨Or.inl (by decide), sliding_window_invalid_args ("x".data) 0 5 (Or.inl (by decide))⟩

/-! ### Claim C7 -/

/-- C7 counterexample: `sliding_window("Hello World Example", 10, 5)` does
NOT return `[(0,"Hello Worl"), (5,"World Exam"), (10,"Example")]` as the
spec (copying the docstring example) claims: `text[5:15]` is `" World Exa"`
(position 5 is the space before "World") and `text[10:20]` is
`"d Example"`. -/
theorem sliding_window_hello_counterexample :
    sliding_window ("Hello World Example".data) 10 5 ≠
      .ok [⟨0, "Hello Worl".data⟩, ⟨5, "World Exam".data⟩, ⟨10, "Example".data⟩] := by
  decide

/-- C7 (amended): `sliding_window("Hello World Example", 10, 5)` returns
exactly the three chunks `(0,"Hello Worl")`, `(5," World Exa")`,
`(10,"d Example")`, in that order. -/
theorem sliding_window_hello_actual :
    sliding_window ("Hello World Example".data) 10 5 =
      .ok [⟨0, "Hello Worl".data⟩, ⟨5, " World Exa".data⟩, ⟨10, "d Example".data⟩] := by
  decide

/-! ### Claim C3 -/

/-- C3 counterexample: for empty text, `sliding_window` returns zero
chunks, not the single empty chunk at start 0 claimed by the spec
(`range(0, 0, step)` is empty, so the loop body never runs). -/
theorem sliding_window_empty_counterexample :
    sliding_window ([] : List Char) 3 2 = .ok [] ∧
    (Except.ok ([] : List Chunk) : Except String (List Chunk)) ≠ .ok [⟨0, []⟩] := by
  constructor
  · decide
  · decide

/-- C3 (amended): for every `size > 0` and `step > 0`,
`sliding_window("", size, step)` returns zero chunks, and `chunk_documents`
emits zero chunks for a record missing its `content` field. -/
theorem sliding_window_empty_text (size step : Int)
    (hsize : 0 < size) (hstep : 0 < step) :
    sliding_window [] size step = .ok [] ∧
    ∀ doc : Dict, dictGet doc "content" = none →
      chunk_documents [doc] size step = .ok [] := by
  have hvalid : ¬ (size ≤ 0 ∨ step ≤ 0) := by omega
  have hsw : sliding_window ([] : List Char) size step = .ok [] := by
    unfold sliding_window
    rw [if_neg hvalid]
    have hc : pyCount (List.length ([] : List Char)) step.toNat = 0 := by
      unfold pyCount
      apply Nat.div_eq_of_lt
      simp only [List.length_nil]
      omega
    rw [hc]
    rfl
  refine ⟨hsw, ?_⟩
  intro doc hdoc
  have hfull : getFull doc = .ok [] := by
    unfold getFull
    rw [hdoc]
  have hcd : chunk_doc doc size step = .ok [] := by
    unfold chunk_doc
    simp only [hfull, hsw, List.map_nil]
  show chunk_documents [doc] size step = .ok []
  unfold chunk_documents
  rw [hcd]
  rfl

/-- Witness for C3's amended theorem at `size = 3`, `step = 2` and the
record `{"title": "t"}` (no `content` field). -/
theorem sliding_window_empty_text_witness :
    (0 : Int) < 3 ∧ (0 : Int) < 2 ∧
    sliding_window [] 3 2 = .ok [] ∧
    chunk_documents [[("title", Value.vStr "t")]] 3 2 = .ok [] :=
  ⟨by decide, by decide,
   (sliding_window_empty_text 3 2 (by decide) (by decide)).1,
   (sliding_window_empty_text 3 2 (by decide) (by decide)).2
     [("title", Value.vStr "t")] (by decide)⟩

/-! ### Claim C1 -/

/-- C1 counterexample: with `text = "012345"` (length 6), `size = 4`,
`step = 2`, the chunk `(2, "2345")` has end `2 + 4 = 6` which reaches
`len(text)`, yet a further chunk `(4, "45")` is emitted after it: the loop
breaks only when `i + size` STRICTLY exceeds `len(text)`, refuting "stops
emitting after the first emitted chunk whose end reaches or exceeds
len(text)". -/
theorem sliding_window_emission_counterexample :
    sliding_window ("012345".data) 4 2 =
      .ok [⟨0, "0123".data⟩, ⟨2, "2345".data⟩, ⟨4, "45".data⟩] ∧
    ("012345".data).length ≤ 2 + 4 := by
  constructor
  · decide
  · decide

/-- C1 (amended): with valid parameters, `sliding_window` emits at offsets
`0, step, 2*step, ...`, never at or past `len(text)`, each chunk being
`text[offset : offset+size]`; it stops emitting after the first chunk whose
end `offset + size` STRICTLY exceeds `len(text)` (every non-last chunk has
`offset + size ≤ len(text)`), and it stops only for that reason or because
the next offset would reach or pass `len(text)`. -/
theorem sliding_window_emission (text : List Char) (size step : Int)
    (chunks : List Chunk) (h : sliding_window text size step = .ok chunks) :
    (∀ k, k < chunks.length →
        chunks[k]? = some ⟨k * step.toNat,
          (text.drop (k * step.toNat)).take size.toNat⟩ ∧
        k * step.toNat < text.length) ∧
    (∀ k, k + 1 < chunks.length → k * step.toNat + size.toNat ≤ text.length) ∧
    (text ≠ [] → ∃ hne : chunks ≠ [],
        text.length < (chunks.getLast hne).start + size.toNat ∨
        text.length ≤ (chunks.getLast hne).start + step.toNat) := by
  obtain ⟨hs, ht, hchunks⟩ := sliding_window_ok text size step chunks h
  have hst : 0 < step.toNat := by omega
  subst hchunks
  refine ⟨?_, ?_, ?_⟩
  · intro k hk
    constructor
    · have := swGo_get text size.toNat step.toNat
        (pyCount text.length step.toNat) 0 k hk
      simpa using this
    · have hlen := swGo_length_le text size.toNat step.toNat
        (pyCount text.length step.toNat) 0
      exact pyCount_lt_n text.length step.toNat hst k (by omega)
  · intro k hk
    have := swGo_nonlast text size.toNat step.toNat
      (pyCount text.length step.toNat) 0 k hk
    simpa using this
  · intro hne0
    have hn : 0 < text.length := List.length_pos.mpr hne0
    have hcpos := pyCount_pos text.length step.toNat hst hn
    have hne := swGo_ne_nil text size.toNat step.toNat
      (pyCount text.length step.toNat) 0 hcpos
    refine ⟨hne, ?_⟩
    have hend : text.length ≤ 0 + pyCount text.length step.toNat * step.toNat := by
      have := pyCount_mul_ge text.length step.toNat hst
      omega
    exact swGo_last_stop text size.toNat step.toNat
      (pyCount text.length step.toNat) 0 hend hne

/-- Witness for C1's amended theorem at `text = "ab"`, `size = 5`,
`step = 9`, whose output is the single chunk `(0, "ab")`. -/
theorem sliding_window_emission_witness :
    sliding_window ("ab".data) 5 9 = .ok [⟨0, "ab".data⟩] ∧
    ((∀ k, k < [(⟨0, "ab".data⟩ : Chunk)].length →
        [(⟨0, "ab".data⟩ : Chunk)][k]? = some ⟨k * 9, (("ab".data).drop (k * 9)).take 5⟩ ∧
        k * 9 < ("ab".data).length) ∧
     (∀ k, k + 1 < [(⟨0, "ab".data⟩ : Chunk)].length →
        k * 9 + 5 ≤ ("ab".data).length) ∧
     ("ab".data ≠ [] → ∃ hne : [(⟨0, "ab".data⟩ : Chunk)] ≠ [],
        ("ab".data).length < ([(⟨0, "ab".data⟩ : Chunk)].getLast hne).start + 5 ∨
        ("ab".data).length ≤ ([(⟨0, "ab".data⟩ : Chunk)].getLast hne).start + 9)) :=
  ⟨by decide, sliding_window_emission ("ab".data) 5 9 [⟨0, "ab".data⟩] (by decide)⟩

/-! ### Claim C2 -/

/-- C2 counterexample: with `step = 5 > size = 2` on `"0123456789"`, the
chunks are `(0,"01")` and `(5,"56")`: position 2 is covered by no chunk and
the last chunk's end is `5 + 2 = 7 ≠ 10`, refuting gap-freeness and the
last-end condition for general valid `(size, step)`. -/
theorem sliding_window_coverage_counterexample :
    sliding_window ("0123456789".data) 2 5 = .ok [⟨0, "01".data⟩, ⟨5, "56".data⟩] ∧
    (∀ ch ∈ [(⟨0, "01".data⟩ : Chunk), ⟨5, "56".data⟩],
      ¬ (ch.start ≤ 2 ∧ 2 < ch.start + ch.content.length)) ∧
    5 + ("56".data).length ≠ ("0123456789".data).length := by
  refine ⟨by decide, by decide, by decide⟩

/-- C2 (amended): for `step ≤ size`, the chunks have strictly increasing
`start` values, their ranges cover `[0, len(text))` with no gap, and the
last chunk's end equals `len(text)` exactly; empty text yields zero chunks
(not one empty chunk). -/
theorem sliding_window_coverage (text : List Char) (size step : Int)
    (hss : step ≤ size)
    (chunks : List Chunk) (h : sliding_window text size step = .ok chunks) :
    (∀ (k1 k2 : Nat) (c1 c2 : Chunk), k1 < k2 → chunks[k1]? = some c1 →
        chunks[k2]? = some c2 → c1.start < c2.start) ∧
    (∀ p, p < text.length →
        ∃ ch ∈ chunks, ch.start ≤ p ∧ p < ch.start + ch.content.length) ∧
    (text = [] → chunks = []) ∧
    (∀ hne : chunks ≠ [],
        (chunks.getLast hne).start + (chunks.getLast hne).content.length =
          text.length) := by
  obtain ⟨hs, ht, hchunks⟩ := sliding_window_ok text size step chunks h
  have hst : 0 < step.toNat := by omega
  have hsts : step.toNat ≤ size.toNat := by omega
  have hend : text.length ≤ 0 + pyCount text.length step.toNat * step.toNat := by
    have := pyCount_mul_ge text.length step.toNat hst
    omega
  subst hchunks
  refine ⟨?_, ?_, ?_, ?_⟩
  · intro k1 k2 c1 c2 hlt hc1 hc2
    have hk2 : k2 < (swGo text size.toNat
        (List.range' 0 (pyCount text.length step.toNat) step.toNat)).length := by
      by_contra hcon
      rw [List.getElem?_eq_none (by omega)] at hc2
      cases hc2
    have hk1 : k1 < (swGo text size.toNat
        (List.range' 0 (pyCount text.length step.toNat) step.toNat)).length := by
      omega
    have e1 := swGo_get text size.toNat step.toNat
      (pyCount text.length step.toNat) 0 k1 hk1
    have e2 := swGo_get text size.toNat step.toNat
      (pyCount text.length step.toNat) 0 k2 hk2
    rw [hc1] at e1
    rw [hc2] at e2
    have hc1e := Option.some.inj e1
    have hc2e := Option.some.inj e2
    rw [hc1e, hc2e]
    show 0 + k1 * step.toNat < 0 + k2 * step.toNat
    have := (Nat.mul_lt_mul_right hst).mpr hlt
    omega
  · intro p hp
    exact swGo_covers text size.toNat step.toNat hsts
      (pyCount text.length step.toNat) 0 p (Nat.zero_le p) hp hend
  · intro htext
    subst htext
    have hc : pyCount (List.length ([] : List Char)) step.toNat = 0 := by
      unfold pyCount
      apply Nat.div_eq_of_lt
      simp only [List.length_nil]
      omega
    rw [hc]
    rfl
  · intro hne
    by_cases htext : text = []
    · exfalso
      apply hne
      subst htext
      have hc : pyCount (List.length ([] : List Char)) step.toNat = 0 := by
        unfold pyCount
        apply Nat.div_eq_of_lt
        simp only [List.length_nil]
        omega
      rw [hc]
      rfl
    · have hn : 0 < text.length := List.length_pos.mpr htext
      have hlt : ∀ k, k < pyCount text.length step.toNat →
          0 + k * step.toNat < text.length := by
        intro k hk
        have := pyCount_lt_n text.length step.toNat hst k hk
        omega
      exact swGo_last_end text size.toNat step.toNat hsts
        (pyCount text.length step.toNat) 0 hlt hend hne

/-- Witness for C2's amended theorem at `text = "abcd"`, `size = 3`,
`step = 2`, whose output is `[(0,"abc"), (2,"cd")]`. -/
theorem sliding_window_coverage_witness :
    sliding_window ("abcd".data) 3 2 = .ok [⟨0, "abc".data⟩, ⟨2, "cd".data⟩] ∧
    ((∀ (k1 k2 : Nat) (c1 c2 : Chunk), k1 < k2 →
        [(⟨0, "abc".data⟩ : Chunk), ⟨2, "cd".data⟩][k1]? = some c1 →
        [(⟨0, "abc".data⟩ : Chunk), ⟨2, "cd".data⟩][k2]? = some c2 →
        c1.start < c2.start) ∧
     (∀ p, p < ("abcd".data).length →
        ∃ ch ∈ [(⟨0, "abc".data⟩ : Chunk), ⟨2, "cd".data⟩],
          ch.start ≤ p ∧ p < ch.start + ch.content.length) ∧
     ("abcd".data = [] → [(⟨0, "abc".data⟩ : Chunk), ⟨2, "cd".data⟩] = []) ∧
     (∀ hne : [(⟨0, "abc".data⟩ : Chunk), ⟨2, "cd".data⟩] ≠ [],
        (([(⟨0, "abc".data⟩ : Chunk), ⟨2, "cd".data⟩].getLast hne).start +
          ([(⟨0, "abc".data⟩ : Chunk), ⟨2, "cd".data⟩].getLast hne).content.length =
          ("abcd".data).length))) :=
  ⟨by decide, sliding_window_coverage ("abcd".data) 3 2 (by decide)
      [⟨0, "abc".data⟩, ⟨2, "cd".data⟩] (by decide)⟩

/-! ### Lemmas about the dict operations -/

theorem dictGet_dictSet (d : Dict) (k : String) (v : Value) (f : String) :
    dictGet (dictSet d k v) f = if f = k then some v else dictGet d f := by
  induction d with
  | nil =>
    simp only [dictSet, dictGet]
    by_cases h : f = k
    · subst h; simp
    · rw [if_neg (fun hh => h hh.symm), if_neg h]
  | cons p rest ih =>
    by_cases hpk : p.1 = k <;> by_cases hpf : p.1 = f <;>
      by_cases hfk : f = k <;>
      simp_all [dictSet, dictGet]

theorem lastVal_none (d : Dict) (f : String) (h : f ∉ d.map Prod.fst) :
    lastVal d f = none := by
  induction d with
  | nil => rfl
  | cons p rest ih =>
    simp only [List.map_cons, List.mem_cons] at h
    push_neg at h
    simp only [lastVal, ih h.2]
    rw [if_neg (fun hh => h.1 hh.symm)]

theorem dictGet_none (d : Dict) (f : String) (h : f ∉ d.map Prod.fst) :
    dictGet d f = none := by
  induction d with
  | nil => rfl
  | cons p rest ih =>
    simp only [List.map_cons, List.mem_cons] at h
    push_neg at h
    simp only [dictGet]
    rw [if_neg (fun hh => h.1 hh.symm)]
    exact ih h.2

theorem lastVal_eq_dictGet (d : Dict) (f : String) (hnd : (d.map Prod.fst).Nodup) :
    lastVal d f = dictGet d f := by
  induction d with
  | nil => rfl
  | cons p rest ih =>
    simp only [List.map_cons, List.nodup_cons] at hnd
    obtain ⟨hp, hrest⟩ := hnd
    simp only [lastVal, dictGet, ih hrest]
    by_cases hpf : p.1 = f
    · subst hpf
      rw [dictGet_none rest p.1 hp]
    · cases hdg : dictGet rest f with
      | some v => simp [hpf]
      | none => simp [hpf]

theorem dictGet_dictUpdate (ch base : Dict) (f : String) :
    dictGet (dictUpdate ch base) f =
      match lastVal base f with
      | some v => some v
      | none => dictGet ch f := by
  induction base generalizing ch with
  | nil => rfl
  | cons p rest ih =>
    simp only [dictUpdate, lastVal]
    rw [ih]
    cases hlv : lastVal rest f with
    | some v => simp
    | none =>
      simp only []
      rw [dictGet_dictSet]
      by_cases hfp : f = p.1
      · rw [if_pos hfp, if_pos (by rw [hfp])]
      · rw [if_neg hfp, if_neg (fun hh => hfp hh.symm)]

theorem dictGet_dictRemove (d : Dict) (k f : String) :
    dictGet (dictRemove d k) f = if f = k then none else dictGet d f := by
  induction d with
  | nil => by_cases h : f = k <;> simp [dictRemove, dictGet, h]
  | cons p rest ih =>
    by_cases hpk : p.1 = k <;> by_cases hpf : p.1 = f <;>
      by_cases hfk : f = k <;>
      simp_all [dictRemove, dictGet, List.filter_cons]

theorem not_mem_keys_dictRemove (d : Dict) (k : String) :
    k ∉ ((dictRemove d k).map Prod.fst) := by
  intro hmem
  simp only [List.mem_map] at hmem
  obtain ⟨p, hp, hpk⟩ := hmem
  simp only [dictRemove, List.mem_filter] at hp
  exact (of_decide_eq_true hp.2) hpk

theorem nodup_keys_dictRemove (d : Dict) (k : String)
    (hnd : (d.map Prod.fst).Nodup) : ((dictRemove d k).map Prod.fst).Nodup :=
  ((List.filter_sublist d).map Prod.fst).nodup hnd

/-- Lookup in a merged chunk record: base (metadata) entries win for keys
they define; otherwise the fresh `{"start", "content"}` dict answers. -/
theorem dictGet_merged (c : Chunk) (base : Dict) (f : String)
    (hnd : (base.map Prod.fst).Nodup) :
    dictGet (dictUpdate (chunkInit c) base) f =
      match dictGet base f with
      | some v => some v
      | none => dictGet (chunkInit c) f := by
  rw [dictGet_dictUpdate, lastVal_eq_dictGet base f hnd]

/-- Membership from a successful positional lookup. -/
theorem mem_of_getElem_some {α : Type} {l : List α} {i : Nat} {a : α}
    (h : l[i]? = some a) : a ∈ l := by
  have hlt : i < l.length := by
    by_contra hcon
    rw [List.getElem?_eq_none (by omega)] at h
    cases h
  have hget : l[i] = a := by
    rw [List.getElem?_eq_getElem hlt] at h
    exact Option.some.inj h
  rw [← hget]
  exact List.getElem_mem hlt

/-- Unpacking a successful `chunk_doc` call. -/
theorem chunk_doc_ok (doc : Dict) (size step : Int) (cds : List Dict)
    (h : chunk_doc doc size step = .ok cds) :
    ∃ full cs, getFull doc = .ok full ∧ sliding_window full size step = .ok cs ∧
      cds = cs.map fun c => dictUpdate (chunkInit c) (dictRemove doc "content") := by
  unfold chunk_doc at h
  cases hf : getFull doc with
  | error e =>
    simp only [hf] at h
    exact Except.noConfusion h
  | ok full =>
    simp only [hf] at h
    cases hs : sliding_window full size step with
    | error e =>
      simp only [hs] at h
      exact Except.noConfusion h
    | ok cs =>
      simp only [hs] at h
      exact ⟨full, cs, rfl, hs, (Except.ok.inj h).symm⟩

/-- Unpacking a successful `chunk_documents` call into its per-record
chunk lists, in input order. -/
theorem chunk_documents_ok (docs : List Dict) (size step : Int) (chunks : List Dict)
    (h : chunk_documents docs size step = .ok chunks) :
    ∃ ls : List (List Dict), chunks = ls.flatten ∧ ls.length = docs.length ∧
      ∀ (i : Nat) (d : Dict), docs[i]? = some d →
        ∃ li, ls[i]? = some li ∧ chunk_doc d size step = .ok li := by
  induction docs generalizing chunks with
  | nil =>
    unfold chunk_documents at h
    have hch := Except.ok.inj h
    subst hch
    exact ⟨[], rfl, rfl, by intro i d hd; simp at hd⟩
  | cons d rest ih =>
    unfold chunk_documents at h
    cases hcd : chunk_doc d size step with
    | error e =>
      simp only [hcd] at h
      exact Except.noConfusion h
    | ok cs =>
      simp only [hcd] at h
      cases hrest : chunk_documents rest size step with
      | error e =>
        simp only [hrest] at h
        exact Except.noConfusion h
      | ok more =>
        simp only [hrest] at h
        have hch := Except.ok.inj h
        obtain ⟨ls, hfl, hlen, hall⟩ := ih more hrest
        refine ⟨cs :: ls, ?_, by simp [hlen], ?_⟩
        · rw [← hch, hfl]
          simp
        · intro i dd hd
          match i with
          | 0 =>
            simp only [List.getElem?_cons_zero] at hd
            have hdd := Option.some.inj hd
            subst hdd
            exact ⟨cs, by simp, hcd⟩
          | i + 1 =>
            simp only [List.getElem?_cons_succ] at hd ⊢
            exact hall i dd hd

/-! ### Claim C4 -/

/-- C4 counterexample: for the record
`{"content": "ab", "start": 99}`, every emitted chunk record carries the
metadata's `start` value 99, not the chunk's own offset (0 for the first
chunk): `ch.update(base)` lets the metadata overwrite the chunk's `start`. -/
theorem chunk_documents_collision_counterexample :
    chunk_documents [[("content", Value.vStr "ab"), ("start", Value.vNat 99)]] 1 1 =
      .ok [[("start", Value.vNat 99), ("content", Value.vStr "a")],
           [("start", Value.vNat 99), ("content", Value.vStr "b")]] ∧
    dictGet [("start", Value.vNat 99), ("content", Value.vStr "a")] "start" =
      some (Value.vNat 99) ∧
    some (Value.vNat 99) ≠ some (Value.vNat 0) := by
  refine ⟨by decide, by decide, by decide⟩

/-- C4 (amended): in the chunk records emitted by `chunk_documents`'s
per-record body `chunk_doc`, the chunk's own `content` always wins (the
metadata's `content` was popped into `full`), but a metadata field
literally named `start` overwrites the chunk's own `start` on every chunk
of that record (`ch.update(base)` gives the metadata precedence). -/
theorem chunk_doc_merge_precedence (doc : Dict) (size step : Int)
    (hnd : (doc.map Prod.fst).Nodup) (cds : List Dict)
    (h : chunk_doc doc size step = .ok cds) :
    ∃ full cs, getFull doc = .ok full ∧ sliding_window full size step = .ok cs ∧
      cds.length = cs.length ∧
      ∀ (k : Nat) (ch : Chunk) (cd : Dict), cs[k]? = some ch → cds[k]? = some cd →
        dictGet cd "content" = some (Value.vStr (String.mk ch.content)) ∧
        (∀ v, dictGet doc "start" = some v → dictGet cd "start" = some v) := by
  obtain ⟨full, cs, hf, hs, hmap⟩ := chunk_doc_ok doc size step cds h
  subst hmap
  refine ⟨full, cs, hf, hs, by simp, ?_⟩
  intro k ch cd hch hcd
  rw [List.getElem?_map, hch] at hcd
  have hcdE : cd = dictUpdate (chunkInit ch) (dictRemove doc "content") :=
    (Option.some.inj hcd).symm
  subst hcdE
  have hndB : ((dictRemove doc "content").map Prod.fst).Nodup :=
    nodup_keys_dictRemove doc "content" hnd
  constructor
  · rw [dictGet_merged ch _ "content" hndB]
    rw [dictGet_none _ "content" (not_mem_keys_dictRemove doc "content")]
    simp [chunkInit, dictGet]
  · intro v hv
    rw [dictGet_merged ch _ "start" hndB]
    rw [dictGet_dictRemove]
    rw [if_neg (by decide), hv]

/-- Witness for C4's amended theorem at the record
`{"content": "xy", "start": 4}` with `size = step = 1`. -/
theorem chunk_doc_merge_precedence_witness :
    (([("content", Value.vStr "xy"), ("start", Value.vNat 4)] : Dict).map
        Prod.fst).Nodup ∧
    (∃ full cs,
      getFull [("content", Value.vStr "xy"), ("start", Value.vNat 4)] = .ok full ∧
      sliding_window full 1 1 = .ok cs ∧
      ([[("start", Value.vNat 4), ("content", Value.vStr "x")],
        [("start", Value.vNat 4), ("content", Value.vStr "y")]] : List Dict).length =
        cs.length ∧
      ∀ (k : Nat) (ch : Chunk) (cd : Dict), cs[k]? = some ch →
        ([[("start", Value.vNat 4), ("content", Value.vStr "x")],
          [("start", Value.vNat 4), ("content", Value.vStr "y")]] : List Dict)[k]? =
          some cd →
        dictGet cd "content" = some (Value.vStr (String.mk ch.content)) ∧
        (∀ v, dictGet [("content", Value.vStr "xy"), ("start", Value.vNat 4)]
            "start" = some v → dictGet cd "start" = some v)) :=
  ⟨by decide,
   chunk_doc_merge_precedence
     [("content", Value.vStr "xy"), ("start", Value.vNat 4)] 1 1 (by decide)
     [[("start", Value.vNat 4), ("content", Value.vStr "x")],
      [("start", Value.vNat 4), ("content", Value.vStr "y")]] (by decide)⟩

/-! ### Claim C6 -/

/-- C6 counterexample: a record whose metadata defines a field literally
named `start` (`{"content": "abcd", "start": 7}`, `size = step = 2`)
yields chunks that all carry `start = 7`: within that record the `start`
values are NOT increasing (and `start` is not chunk-specific). -/
theorem chunk_documents_order_counterexample :
    chunk_documents [[("content", Value.vStr "abcd"), ("start", Value.vNat 7)]] 2 2 =
      .ok [[("start", Value.vNat 7), ("content", Value.vStr "ab")],
           [("start", Value.vNat 7), ("content", Value.vStr "cd")]] ∧
    dictGet [("start", Value.vNat 7), ("content", Value.vStr "ab")] "start" =
      dictGet [("start", Value.vNat 7), ("content", Value.vStr "cd")] "start" ∧
    ¬ (7 : Nat) < 7 := by
  refine ⟨by decide, by decide, by decide⟩

/-- C6 (amended): `chunk_documents` keeps all chunks of record *i* before
all chunks of record *i+1*; every metadata field other than `content` and
`start` is present and unchanged on every derived chunk; and when the
record's metadata has no field named `start`, the k-th chunk of that record
carries `start = k * step` — strictly increasing.  (When metadata does
define `start`, its value overwrites every chunk's `start`; see C4.) -/
theorem chunk_documents_preservation_order (docs : List Dict) (size step : Int)
    (hnd : ∀ d ∈ docs, (d.map Prod.fst).Nodup)
    (chunks : List Dict) (h : chunk_documents docs size step = .ok chunks) :
    ∃ ls : List (List Dict), chunks = ls.flatten ∧ ls.length = docs.length ∧
      ∀ (i : Nat) (d : Dict), docs[i]? = some d →
        ∃ li, ls[i]? = some li ∧ chunk_doc d size step = .ok li ∧
          (∀ cd ∈ li, ∀ (f : String) (v : Value), f ≠ "content" → f ≠ "start" →
             dictGet d f = some v → dictGet cd f = some v) ∧
          (dictGet d "start" = none →
             ∀ (k : Nat) (cd : Dict), li[k]? = some cd →
               dictGet cd "start" = some (Value.vNat (k * step.toNat))) := by
  obtain ⟨ls, hfl, hlen, hall⟩ := chunk_documents_ok docs size step chunks h
  refine ⟨ls, hfl, hlen, ?_⟩
  intro i d hd
  obtain ⟨li, hli, hcd⟩ := hall i d hd
  have hdmem : d ∈ docs := mem_of_getElem_some hd
  have hndd := hnd d hdmem
  have hndB : ((dictRemove d "content").map Prod.fst).Nodup :=
    nodup_keys_dictRemove d "content" hndd
  obtain ⟨full, cs, hf, hs, hmap⟩ := chunk_doc_ok d size step li hcd
  refine ⟨li, hli, hcd, ?_, ?_⟩
  · intro cd hcdmem f v hfc hfs hdf
    subst hmap
    obtain ⟨ch, hchmem, hche⟩ := List.mem_map.mp hcdmem
    subst hche
    rw [dictGet_merged ch _ f hndB, dictGet_dictRemove, if_neg hfc, hdf]
  · intro hds k cd hcdk
    subst hmap
    rw [List.getElem?_map] at hcdk
    cases hcs : cs[k]? with
    | none => rw [hcs] at hcdk; cases hcdk
    | some ch =>
      rw [hcs] at hcdk
      have hcdE : cd = dictUpdate (chunkInit ch) (dictRemove d "content") :=
        (Option.some.inj hcdk).symm
      subst hcdE
      rw [dictGet_merged ch _ "start" hndB, dictGet_dictRemove,
        if_neg (by decide), hds]
      have hk : k < cs.length := by
        by_contra hcon
        rw [List.getElem?_eq_none (by omega)] at hcs
        cases hcs
      obtain ⟨hs1, hs2, hcseq⟩ := sliding_window_ok full size step cs hs
      subst hcseq
      have := swGo_get full size.toNat step.toNat
        (pyCount full.length step.toNat) 0 k hk
      rw [hcs] at this
      have hche := Option.some.inj this
      rw [hche]
      simp [chunkInit, dictGet]

/-- Witness for C6's amended theorem at
`docs = [{"content": "abc", "title": "T"}]`, `size = step = 2`. -/
theorem chunk_documents_preservation_order_witness :
    (∀ d ∈ ([[("content", Value.vStr "abc"), ("title", Value.vStr "T")]] : List Dict),
       (d.map Prod.fst).Nodup) ∧
    (∃ ls : List (List Dict),
      ([[("start", Value.vNat 0), ("content", Value.vStr "ab"), ("title", Value.vStr "T")],
        [("start", Value.vNat 2), ("content", Value.vStr "c"), ("title", Value.vStr "T")]] :
          List Dict) = ls.flatten ∧
      ls.length =
        ([[("content", Value.vStr "abc"), ("title", Value.vStr "T")]] : List Dict).length ∧
      ∀ (i : Nat) (d : Dict),
        ([[("content", Value.vStr "abc"), ("title", Value.vStr "T")]] : List Dict)[i]? =
          some d →
        ∃ li, ls[i]? = some li ∧ chunk_doc d 2 2 = .ok li ∧
          (∀ cd ∈ li, ∀ (f : String) (v : Value), f ≠ "content" → f ≠ "start" →
             dictGet d f = some v → dictGet cd f = some v) ∧
          (dictGet d "start" = none →
             ∀ (k : Nat) (cd : Dict), li[k]? = some cd →
               dictGet cd "start" = some (Value.vNat (k * (2 : Int).toNat)))) :=
  ⟨by decide,
   chunk_documents_preservation_order
     [[("content", Value.vStr "abc"), ("title", Value.vStr "T")]] 2 2 (by decide)
     [[("start", Value.vNat 0), ("content", Value.vStr "ab"), ("title", Value.vStr "T")],
      [("start", Value.vNat 2), ("content", Value.vStr "c"), ("title", Value.vStr "T")]]
     (by decide)⟩

/-! ### Lemmas about the extraction loop and branch fallback -/

/-- A kept entry whose parse fails makes `processEntry` fail with that error. -/
theorem processEntry_error_of_kept (ow nm b : String) (exts prefixes : List String)
    (e : ZipEntry) (hkept : keptEntry exts prefixes e = true)
    (perr : String) (hperr : e.parsed = .error perr) :
    processEntry ow nm b exts prefixes e = .error perr := by
  unfold keptEntry at hkept
  rw [Bool.and_eq_true] at hkept
  obtain ⟨h1, h2⟩ := hkept
  unfold processEntry
  simp only []
  rw [if_pos h1]
  cases hsplit : splitOnFirstSlash e.filename.data with
  | none => rw [hsplit] at h2; cases h2
  | some pr =>
    obtain ⟨l, pathCh⟩ := pr
    rw [hsplit] at h2
    simp only [] at h2
    simp [h2, hperr]

/-- Any kept entry with a parse failure aborts the whole extraction pass:
`processEntries` returns an error and produces no records. -/
theorem processEntries_error_of_kept (ow nm b : String)
    (exts prefixes : List String) (entries : List ZipEntry) (e : ZipEntry)
    (he : e ∈ entries) (hkept : keptEntry exts prefixes e = true)
    (perr : String) (hperr : e.parsed = .error perr) :
    ∃ err, processEntries ow nm b exts prefixes entries = .error err := by
  induction entries with
  | nil => simp at he
  | cons e0 rest ih =>
    rcases List.mem_cons.mp he with he0 | hrest2
    · subst he0
      refine ⟨perr, ?_⟩
      unfold processEntries
      rw [processEntry_error_of_kept ow nm b exts prefixes e hkept perr hperr]
    · obtain ⟨err, herr⟩ := ih hrest2
      unfold processEntries
      cases hpe : processEntry ow nm b exts prefixes e0 with
      | error e1 => exact ⟨e1, by simp [hpe]⟩
      | ok r =>
        refine ⟨err, ?_⟩
        simp only [hpe, herr]

/-- Every record produced from one parsed entry carries the branch it was
downloaded from (the last assignment in the record construction). -/
theorem processEntry_branch (ow nm b : String) (exts prefixes : List String)
    (e : ZipEntry) (d : Dict)
    (h : processEntry ow nm b exts prefixes e = .ok (some d)) :
    dictGet d "branch" = some (Value.vStr b) := by
  unfold processEntry at h
  simp only [] at h
  split at h
  · split at h
    · exact Option.noConfusion (Except.ok.inj h)
    · split at h
      · split at h
        · exact Except.noConfusion h
        · have hd := Option.some.inj (Except.ok.inj h)
          subst hd
          simp [buildDoc, dictGet_dictSet]
      · exact Option.noConfusion (Except.ok.inj h)
  · exact Option.noConfusion (Except.ok.inj h)

/-- Every record of a successful extraction pass carries its branch. -/
theorem processEntries_branch (ow nm b : String) (exts prefixes : List String)
    (entries : List ZipEntry) (docs : List Dict)
    (h : processEntries ow nm b exts prefixes entries = .ok docs) :
    ∀ d ∈ docs, dictGet d "branch" = some (Value.vStr b) := by
  induction entries generalizing docs with
  | nil =>
    unfold processEntries at h
    have hd := Except.ok.inj h
    subst hd
    intro d hd
    simp at hd
  | cons e0 rest ih =>
    unfold processEntries at h
    split at h
    · exact Except.noConfusion h
    · split at h
      · exact Except.noConfusion h
      · split at h
        · have hd := Except.ok.inj h
          subst hd
          exact ih _ (by assumption)
        · have hd := Except.ok.inj h
          subst hd
          intro d hdm
          rcases List.mem_cons.mp hdm with hd0 | hdrest
          · subst hd0
            exact processEntry_branch ow nm b exts prefixes e0 d (by assumption)
          · exact ih _ (by assumption) d hdrest

/-- A successful branch attempt yields records that all carry that branch. -/
theorem tryBranch_branch (fetch : String → Except String (List ZipEntry))
    (ow nm : String) (exts prefixes : List String) (b : String) (docs : List Dict)
    (h : tryBranch fetch ow nm exts prefixes b = .ok docs) :
    ∀ d ∈ docs, dictGet d "branch" = some (Value.vStr b) := by
  unfold tryBranch at h
  cases hf : fetch b with
  | error e => rw [hf] at h; exact Except.noConfusion h
  | ok entries =>
    rw [hf] at h
    exact processEntries_branch ow nm b exts prefixes entries docs h

/-- The branch loop returns the first successful attempt, whatever error is
accumulated so far. -/
theorem read_repo_data_go_first_success
    (fetch : String → Except String (List ZipEntry)) (ow nm : String)
    (exts prefixes : List String) :
    ∀ (pre : List String) (b : String) (rest : List String) (docs : List Dict)
      (acc : Option String),
      (∀ b2 ∈ pre, ∃ e2, tryBranch fetch ow nm exts prefixes b2 = .error e2) →
      tryBranch fetch ow nm exts prefixes b = .ok docs →
      read_repo_data_go fetch ow nm exts prefixes (pre ++ b :: rest) acc =
        .ok (docs, b) := by
  intro pre
  induction pre with
  | nil =>
    intro b rest docs acc hpre hok
    simp only [List.nil_append]
    unfold read_repo_data_go
    simp only [hok]
  | cons p ptail ih =>
    intro b rest docs acc hpre hok
    obtain ⟨e2, he2⟩ := hpre p (List.mem_cons_self p ptail)
    simp only [List.cons_append]
    unfold read_repo_data_go
    simp only [he2]
    exact ih b rest docs (some e2)
      (fun b2 hb2 => hpre b2 (List.mem_cons_of_mem p hb2)) hok

/-- When every branch attempt fails, the loop raises the `RuntimeError`
carrying the LAST branch's underlying error. -/
theorem read_repo_data_go_all_fail
    (fetch : String → Except String (List ZipEntry)) (ow nm : String)
    (exts prefixes : List String) :
    ∀ (pre2 : List String) (lastB : String) (e : String) (acc : Option String),
      (∀ b2 ∈ pre2, ∃ e2, tryBranch fetch ow nm exts prefixes b2 = .error e2) →
      tryBranch fetch ow nm exts prefixes lastB = .error e →
      read_repo_data_go fetch ow nm exts prefixes (pre2 ++ [lastB]) acc =
        .error (some e) := by
  intro pre2
  induction pre2 with
  | nil =>
    intro lastB e acc hpre herr
    simp only [List.nil_append]
    unfold read_repo_data_go
    simp only [herr]
    rfl
  | cons p ptail ih =>
    intro lastB e acc hpre herr
    obtain ⟨e2, he2⟩ := hpre p (List.mem_cons_self p ptail)
    simp only [List.cons_append]
    unfold read_repo_data_go
    simp only [he2]
    exact ih lastB e (some e2)
      (fun b2 hb2 => hpre b2 (List.mem_cons_of_mem p hb2)) herr

/-! ### Claim C8 -/

/-- C8: `read_repo_data` attempts each candidate branch in order, moves to
the next on any failure, returns on the first success reporting which
branch was used — with that branch embedded in every produced record — and,
when every candidate fails, raises the aggregate `RuntimeError` carrying
the last underlying cause. -/
theorem read_repo_data_branch_fallback
    (fetch : String → Except String (List ZipEntry)) (ow nm : String)
    (exts prefixes : List String) :
    (∀ (pre : List String) (b : String) (rest : List String) (docs : List Dict),
       (∀ b2 ∈ pre, ∃ e2, tryBranch fetch ow nm exts prefixes b2 = .error e2) →
       tryBranch fetch ow nm exts prefixes b = .ok docs →
       read_repo_data fetch ow nm exts prefixes (pre ++ b :: rest) =
         .ok (docs, b) ∧
       ∀ d ∈ docs, dictGet d "branch" = some (Value.vStr b)) ∧
    (∀ (pre2 : List String) (lastB : String) (e : String),
       (∀ b2 ∈ pre2, ∃ e2, tryBranch fetch ow nm exts prefixes b2 = .error e2) →
       tryBranch fetch ow nm exts prefixes lastB = .error e →
       read_repo_data fetch ow nm exts prefixes (pre2 ++ [lastB]) =
         .error (some e)) := by
  constructor
  · intro pre b rest docs hpre hok
    refine ⟨?_, tryBranch_branch fetch ow nm exts prefixes b docs hok⟩
    unfold read_repo_data
    exact read_repo_data_go_first_success fetch ow nm exts prefixes
      pre b rest docs none hpre hok
  · intro pre2 lastB e hpre herr
    unfold read_repo_data
    exact read_repo_data_go_all_fail fetch ow nm exts prefixes
      pre2 lastB e none hpre herr

/-- Witness for C8 with candidates `("main", "master")`: `main` fails with
an HTTP error, `master` succeeds with one EIP file; and a second fetch
function where both fail, surfacing the last (`master`) error. -/
theorem read_repo_data_branch_fallback_witness :
    read_repo_data
      (fun br => if br = "master"
        then .ok [⟨"EIPs-master/EIPS/eip-1.md",
                   .ok ([("eip", Value.vNat 1)], "Body")⟩]
        else .error ("HTTP 404: " ++ br))
      "ethereum" "EIPs" [".md", ".mdx"] ["EIPS/"] ["main", "master"] =
      .ok ([buildDoc [("eip", Value.vNat 1)] "Body" "EIPs-master/EIPS/eip-1.md"
              "EIPS/eip-1.md" "ethereum" "EIPs" "master"], "master") ∧
    (∀ d ∈ [buildDoc [("eip", Value.vNat 1)] "Body" "EIPs-master/EIPS/eip-1.md"
              "EIPS/eip-1.md" "ethereum" "EIPs" "master"],
       dictGet d "branch" = some (Value.vStr "master")) ∧
    read_repo_data (fun br => .error ("HTTP 404: " ++ br))
      "ethereum" "EIPs" [".md", ".mdx"] ["EIPS/"] ["main", "master"] =
      .error (some "HTTP 404: master") := by
  have hsucc := (read_repo_data_branch_fallback
      (fun br => if br = "master"
        then .ok [⟨"EIPs-master/EIPS/eip-1.md",
                   .ok ([("eip", Value.vNat 1)], "Body")⟩]
        else .error ("HTTP 404: " ++ br))
      "ethereum" "EIPs" [".md", ".mdx"] ["EIPS/"]).1
    ["main"] "master" []
    [buildDoc [("eip", Value.vNat 1)] "Body" "EIPs-master/EIPS/eip-1.md"
      "EIPS/eip-1.md" "ethereum" "EIPs" "master"]
    (by
      intro b2 hb2
      have hb2e : b2 = "main" := by simpa using hb2
      subst hb2e
      exact ⟨"HTTP 404: main", by decide⟩)
    (by decide)
  have hfail := (read_repo_data_branch_fallback
      (fun br => .error ("HTTP 404: " ++ br))
      "ethereum" "EIPs" [".md", ".mdx"] ["EIPS/"]).2
    ["main"] "master" "HTTP 404: master"
    (by
      intro b2 hb2
      have hb2e : b2 = "main" := by simpa using hb2
      subst hb2e
      exact ⟨"HTTP 404: main", by decide⟩)
    (by decide)
  exact ⟨hsucc.1, hsucc.2, hfail⟩

/-! ### Claim C9 -/

/-- C9: a Document-Parser failure on an individual file that survives the
filters is not recovered per file: it propagates, aborting that extraction
pass with an error (no records at all for that branch attempt), rather than
skipping the failing file and continuing with the remaining files. -/
theorem parse_failure_aborts_extraction (ow nm b : String)
    (exts prefixes : List String) (entries : List ZipEntry) (e : ZipEntry)
    (he : e ∈ entries) (hkept : keptEntry exts prefixes e = true)
    (perr : String) (hperr : e.parsed = .error perr) :
    (∃ err, processEntries ow nm b exts prefixes entries = .error err) ∧
    ∀ fetch : String → Except String (List ZipEntry), fetch b = .ok entries →
      ∃ err, tryBranch fetch ow nm exts prefixes b = .error err := by
  have hmain := processEntries_error_of_kept ow nm b exts prefixes entries e
    he hkept perr hperr
  refine ⟨hmain, ?_⟩
  intro fetch hfetch
  obtain ⟨err, herr⟩ := hmain
  refine ⟨err, ?_⟩
  unfold tryBranch
  simp only [hfetch, herr]

/-- Witness for C9: a single kept entry whose front-matter parse fails. -/
theorem parse_failure_aborts_extraction_witness :
    (⟨"Repo-main/EIPS/eip-9.md", .error "bad yaml"⟩ : ZipEntry) ∈
      [(⟨"Repo-main/EIPS/eip-9.md", .error "bad yaml"⟩ : ZipEntry)] ∧
    keptEntry [".md"] ["EIPS/"] ⟨"Repo-main/EIPS/eip-9.md", .error "bad yaml"⟩ = true ∧
    (∃ err, processEntries "o" "n" "main" [".md"] ["EIPS/"]
        [⟨"Repo-main/EIPS/eip-9.md", .error "bad yaml"⟩] = .error err) ∧
    (∃ err, tryBranch
        (fun br => if br = "main"
          then .ok [⟨"Repo-main/EIPS/eip-9.md", .error "bad yaml"⟩]
          else .error "no such branch")
        "o" "n" [".md"] ["EIPS/"] "main" = .error err) := by
  have H := parse_failure_aborts_extraction "o" "n" "main" [".md"] ["EIPS/"]
    [⟨"Repo-main/EIPS/eip-9.md", .error "bad yaml"⟩]
    ⟨"Repo-main/EIPS/eip-9.md", .error "bad yaml"⟩
    (by simp) (by decide) "bad yaml" rfl
  exact ⟨by simp, by decide, H.1,
    H.2 (fun br => if br = "main"
          then .ok [⟨"Repo-main/EIPS/eip-9.md", .error "bad yaml"⟩]
          else .error "no such branch") (by decide)⟩

/-! ### Lemmas about the mutation model -/

/-- Setting the freshly appended cell rewrites only that cell. -/
theorem set_append_length (σ : Store) (d x : Dict) :
    (σ ++ [d]).set σ.length x = σ ++ [x] := by
  induction σ with
  | nil => rfl
  | cons h t ih =>
    simp only [List.cons_append, List.length_cons, List.set_cons_succ]
    rw [ih]

/-- The chunk-allocation loop only appends fresh cells to the store. -/
theorem appendChunksMut_extends (baseAddr : Nat) :
    ∀ (cs : List Chunk) (σ : Store) (acc : List Nat),
      ∃ t, (appendChunksMut baseAddr cs σ acc).1 = σ ++ t := by
  intro cs
  induction cs with
  | nil => intro σ acc; exact ⟨[], by simp [appendChunksMut]⟩
  | cons c rest ih =>
    intro σ acc
    obtain ⟨t, ht⟩ := ih (σ ++ [dictUpdate (chunkInit c) (σ.getD baseAddr [])])
      (acc ++ [σ.length])
    refine ⟨[dictUpdate (chunkInit c) (σ.getD baseAddr [])] ++ t, ?_⟩
    unfold appendChunksMut
    rw [ht, List.append_assoc]

/-- `chunk_documents` only allocates new objects: the final store extends
the initial one. -/
theorem chunk_documents_mut_extends (size step : Int) :
    ∀ (addrs : List Nat) (σ σ2 : Store) (out : List Nat),
      chunk_documents_mut size step addrs σ = .ok (σ2, out) →
      ∃ t, σ2 = σ ++ t := by
  intro addrs
  induction addrs with
  | nil =>
    intro σ σ2 out h
    unfold chunk_documents_mut at h
    have hp := Prod.mk.injEq .. ▸ Except.ok.inj h
    exact ⟨[], by rw [← hp.1]; simp⟩
  | cons a rest ih =>
    intro σ σ2 out h
    unfold chunk_documents_mut at h
    simp only [] at h
    cases hfull : getFull (σ.getD a []) with
    | error e =>
      simp only [hfull] at h
      exact Except.noConfusion h
    | ok full =>
      simp only [hfull] at h
      cases hsw : sliding_window full size step with
      | error e =>
        simp only [hsw] at h
        exact Except.noConfusion h
      | ok cs =>
        simp only [hsw] at h
        cases hrec : chunk_documents_mut size step rest
            (appendChunksMut σ.length cs
              ((σ ++ [σ.getD a []]).set σ.length
                (dictRemove (σ.getD a []) "content")) []).1 with
        | error e =>
          simp only [hrec] at h
          exact Except.noConfusion h
        | ok pr =>
          obtain ⟨σ4, more⟩ := pr
          simp only [hrec] at h
          have hσ : σ4 = σ2 := congrArg Prod.fst (Except.ok.inj h)
          obtain ⟨t1, ht1⟩ := ih _ σ4 more hrec
          obtain ⟨t2, ht2⟩ := appendChunksMut_extends σ.length cs
            ((σ ++ [σ.getD a []]).set σ.length (dictRemove (σ.getD a []) "content")) []
          rw [set_append_length] at ht1 ht2
          refine ⟨[dictRemove (σ.getD a []) "content"] ++ (t2 ++ t1), ?_⟩
          rw [← hσ, ht1, ht2]
          simp [List.append_assoc]

/-! ### Claim C10 -/

/-- C10: `chunk_documents` leaves its input unchanged: every input record
object is bit-for-bit the same dict after the call — the implementation
copies each record (`doc.copy()`) and pops `content` only from the copy,
and all chunk records are fresh allocations. -/
theorem chunk_documents_mut_frame (size step : Int) (addrs : List Nat)
    (σ σ2 : Store) (out : List Nat)
    (h : chunk_documents_mut size step addrs σ = .ok (σ2, out)) :
    ∀ a, a < σ.length → σ2[a]? = σ[a]? := by
  obtain ⟨t, ht⟩ := chunk_documents_mut_extends size step addrs σ σ2 out h
  subst ht
  intro a ha
  rw [List.getElem?_append, if_pos ha]

/-- Witness for C10: one record `{"content": "abcd", "t": "x"}` at address
0; after chunking, the store holds the untouched record, the popped copy,
and the two chunk records, and address 0 still holds the original. -/
theorem chunk_documents_mut_frame_witness :
    chunk_documents_mut 2 2 [0]
      [[("content", Value.vStr "abcd"), ("t", Value.vStr "x")]] =
      .ok ([[("content", Value.vStr "abcd"), ("t", Value.vStr "x")],
            [("t", Value.vStr "x")],
            [("start", Value.vNat 0), ("content", Value.vStr "ab"), ("t", Value.vStr "x")],
            [("start", Value.vNat 2), ("content", Value.vStr "cd"), ("t", Value.vStr "x")]],
           [2, 3]) ∧
    ([[("content", Value.vStr "abcd"), ("t", Value.vStr "x")],
      [("t", Value.vStr "x")],
      [("start", Value.vNat 0), ("content", Value.vStr "ab"), ("t", Value.vStr "x")],
      [("start", Value.vNat 2), ("content", Value.vStr "cd"), ("t", Value.vStr "x")]] :
        Store)[0]? =
      ([[("content", Value.vStr "abcd"), ("t", Value.vStr "x")]] : Store)[0]? :=
  ⟨by decide,
   chunk_documents_mut_frame 2 2 [0]
     [[("content", Value.vStr "abcd"), ("t", Value.vStr "x")]]
     [[("content", Value.vStr "abcd"), ("t", Value.vStr "x")],
      [("t", Value.vStr "x")],
      [("start", Value.vNat 0), ("content", Value.vStr "ab"), ("t", Value.vStr "x")],
      [("start", Value.vNat 2), ("content", Value.vStr "cd"), ("t", Value.vStr "x")]]
     [2, 3] (by decide) 0 (by decide)⟩

